import Mathlib

/-!
Verification of the ray-scene intersection and light-transport core of a
Rust path tracer (raytracing-in-one-weekend).

Shallow embedding conventions:
* The Rust scalar `Real` (`f32`) is modelled as `ℚ` throughout the
  raytracer core; float arithmetic on well-behaved values is exact
  min/max/field arithmetic, which `ℚ` captures.  The single infinite
  constant the core uses, `C_INFINITY`, only ever appears as a `t_max`
  query bound, so `t_max` parameters carry type `WithTop ℚ` (with `⊤`
  playing the role of `+∞`) while every other scalar stays in `ℚ`.
* The polynomial root solver (`src/math/src/polynomial.rs`) genuinely
  needs `sqrt`, so it is modelled over `ℝ` with `Real.sqrt`.
* Panics are modelled as `Option`/absence of a result (for the BVH
  builder, as absence of a successful build derivation).
* Thread-local RNG calls are modelled by explicit oracle parameters.
-/

/-- 3-component vector over the rational model of `f32`
(`math::vec3::TVec3<Real>`). -/
structure V3 where
  x : ℚ
  y : ℚ
  z : ℚ
deriving DecidableEq, Repr

/-- Component access, `v[a]` in the Rust sources. -/
def V3.get (v : V3) : Fin 3 → ℚ
  | 0 => v.x
  | 1 => v.y
  | 2 => v.z

/-- `math::vec3::dot`. -/
def V3.dot (a b : V3) : ℚ := a.x * b.x + a.y * b.y + a.z * b.z

/-- Component-wise negation (`Neg` impl of `TVec3`). -/
def V3.neg (a : V3) : V3 := ⟨-a.x, -a.y, -a.z⟩

/-- Component-wise addition. -/
def V3.add (a b : V3) : V3 := ⟨a.x + b.x, a.y + b.y, a.z + b.z⟩

/-- Component-wise (Hadamard) product, the `Mul` impl used for colors. -/
def V3.mul (a b : V3) : V3 := ⟨a.x * b.x, a.y * b.y, a.z * b.z⟩

/-- Scalar multiplication `s * v`. -/
def V3.smul (s : ℚ) (a : V3) : V3 := ⟨s * a.x, s * a.y, s * a.z⟩

/-- Division of a vector by a scalar, `v / s`. -/
def V3.divs (a : V3) (s : ℚ) : V3 := ⟨a.x / s, a.y / s, a.z / s⟩

/-- `Vec3::broadcast`. -/
def V3.broadcast (s : ℚ) : V3 := ⟨s, s, s⟩

/-- `math::ray::TRay<Real>`: origin, direction, time. -/
structure RayQ where
  origin : V3
  direction : V3
  time : ℚ
deriving DecidableEq, Repr

/-- `crate::aabb3::Aabb`: axis-aligned box given by per-axis minima and
maxima. -/
structure Aabb where
  min : V3
  max : V3
deriving DecidableEq, Repr

/-- `types::ffmin`: `if a < b { a } else { b }`. -/
def ffmin (a b : ℚ) : ℚ := if a < b then a else b

/-- `types::ffmax`: `if a > b { a } else { b }`. -/
def ffmax (a b : ℚ) : ℚ := if a > b then a else b

/-- `ffmin` on the `t_max` carrier `WithTop ℚ` (the running upper bound
starts at the caller's `t_max`, possibly `C_INFINITY = ⊤`, and is only
ever lowered by finite slab exits). -/
def ffminT (a : ℚ) (b : WithTop ℚ) : WithTop ℚ := if (a : WithTop ℚ) < b then a else b

/-- One axis of the slab test of `Aabb::hit`: narrow the running
`(t_min, t_max)` interval by the per-axis entry/exit distances.
`invD = 1 / r.direction[a]`; `t0 = ffmin(lo, hi)`, `t1 = ffmax(lo, hi)`. -/
def Aabb.slab (bb : Aabb) (r : RayQ) (a : Fin 3) (acc : ℚ × WithTop ℚ) : ℚ × WithTop ℚ :=
  let invD := 1 / r.direction.get a
  let lo := (bb.min.get a - r.origin.get a) * invD
  let hi := (bb.max.get a - r.origin.get a) * invD
  (ffmax (ffmin lo hi) acc.1, ffminT (ffmax lo hi) acc.2)

/-- `Aabb::hit` (src/raytracer/src/aabb3.rs, lines 19–45): for each of the
three axes narrow the interval and fail as soon as `tmax <= tmin`. -/
def Aabb.hit (bb : Aabb) (r : RayQ) (tmin : ℚ) (tmax : WithTop ℚ) : Bool :=
  let s0 := bb.slab r 0 (tmin, tmax)
  if s0.2 ≤ (s0.1 : WithTop ℚ) then false
  else
    let s1 := bb.slab r 1 s0
    if s1.2 ≤ (s1.1 : WithTop ℚ) then false
    else
      let s2 := bb.slab r 2 s1
      if s2.2 ≤ (s2.1 : WithTop ℚ) then false
      else true

/-- `aabb3::merge_aabbs`: component-wise min of minima, max of maxima. -/
def mergeAabbs (a b : Aabb) : Aabb :=
  { min := ⟨min a.min.x b.min.x, min a.min.y b.min.y, min a.min.z b.min.z⟩
    max := ⟨max a.max.x b.max.x, max a.max.y b.max.y, max a.max.z b.max.z⟩ }

/-- The exact value of `std::f32::MAX`, `(2 − 2⁻²³)·2¹²⁷`. -/
def f32MAX : ℚ := 2 ^ 128 - 2 ^ 104

/-- `Aabb::default` (src/raytracer/src/aabb3.rs, lines 68–75): min is
broadcast `f32::MAX`, max is broadcast `f32::MIN = -f32::MAX`. -/
def Aabb.default : Aabb :=
  { min := V3.broadcast f32MAX, max := V3.broadcast (-f32MAX) }

/-- `hittable::HitRecord`: hit point, stored normal, ray parameter `t`,
material (identified by an index into a material environment, standing for
the `Arc<dyn Material>` pointer identity), orientation flag and surface
parameters. -/
structure HitRec where
  p : V3
  normal : V3
  t : ℚ
  mtl : ℕ
  frontFace : Bool
  u : ℚ
  v : ℚ
deriving DecidableEq, Repr

/-- `HitRecord::new` (src/raytracer/src/hittable.rs, lines 16–42):
`front_face = dot(ray.direction, outward_normal) < 0`, and the stored
normal is the outward normal when `front_face` holds, its negation
otherwise. -/
def HitRec.new (p : V3) (outwardNormal : V3) (ray : RayQ) (t : ℚ) (mtl : ℕ)
    (u v : ℚ) : HitRec :=
  let frontFace := decide (V3.dot ray.direction outwardNormal < 0)
  { p := p
    normal := if frontFace then outwardNormal else outwardNormal.neg
    t := t
    mtl := mtl
    frontFace := frontFace
    u := u
    v := v }

/-- An element of the scene: an `Arc<dyn Hittable>` abstracted by its two
trait methods.  `hitF` is the `hit` method (`t_max` may be `⊤ = C_INFINITY`)
and `box` its `bounding_box` result (`none` models an unbounded primitive;
the boxes in this code base do not depend on `time0, time1`). -/
structure Prim where
  hitF : RayQ → ℚ → WithTop ℚ → Option HitRec
  box : Option Aabb

/-- The comparator fold of `Iterator::min_by` with the comparator of
`HittableList::hit`: keep `a` when `a.t < b.t`, otherwise (including ties)
move to `b`. -/
def minByT (hd : HitRec) (tl : List HitRec) : HitRec :=
  tl.foldl (fun a b => if a.t < b.t then a else b) hd

/-- `HittableList::hit` (src/raytracer/src/hittable_list.rs, lines 39–50):
query every object with the same `(t_min, t_max)`, keep the record
minimising `t` under the comparator
`if a.t < b.t { Less } else { Greater }`. -/
def listHit (objects : List Prim) (r : RayQ) (tmin : ℚ) (tmax : WithTop ℚ) :
    Option HitRec :=
  match objects.filterMap (fun obj => obj.hitF r tmin tmax) with
  | [] => none
  | hd :: tl => some (minByT hd tl)

/-- The shape of a built BVH: leaves are scene elements, internal nodes
carry the two children and the node box (`BvhNode { left, right, bbox }`). -/
inductive HT where
  | prim (p : Prim)
  | node (left right : HT) (bbox : Aabb)

/-- `Hittable::bounding_box` of a subtree: a leaf reports its element's
box, a `BvhNode` reports `Some(self.bbox)`. -/
def HT.rootBox : HT → Option Aabb
  | .prim p => p.box
  | .node _ _ bb => some bb

/-- The scene elements stored at the leaves of a BVH subtree. -/
def HT.leaves : HT → List Prim
  | .prim p => [p]
  | .node l r _ => l.leaves ++ r.leaves

/-- `BvhNode::hit` (src/raytracer/src/bvh.rs, lines 59–84): prune on the
node box; query the left child; query the right child with `t_max`
tightened to the left hit's `t` when the left child hit; reduce the two
results keeping the record with the smaller `t`
(`if a.t < b.t { a } else { b }`). -/
def treeHit : HT → RayQ → ℚ → WithTop ℚ → Option HitRec
  | .prim p, r, tmin, tmax => p.hitF r tmin tmax
  | .node l rt bb, r, tmin, tmax =>
    if bb.hit r tmin tmax = false then none
    else
      let hl := treeHit l r tmin tmax
      let hr := treeHit rt r tmin (match hl with
        | some h => (h.t : WithTop ℚ)
        | none => tmax)
      match hl, hr with
      | some a, some b => some (if a.t < b.t then a else b)
      | some a, none => some a
      | none, some b => some b
      | none, none => none

/-- `bvh::box_compare` (src/raytracer/src/bvh.rs, lines 91–100): compare
two elements by the chosen axis minimum of their `bounding_box(0,0)`;
`none` models the `expect` panic when an element has no bounding box. -/
def boxCompare (a b : Prim) (axis : Fin 3) : Option Ordering :=
  match a.box, b.box with
  | some boxA, some boxB => some (compare (boxA.min.get axis) (boxB.min.get axis))
  | _, _ => none

/-- The comparator key ordering used by the builder's sort: when both
boxes exist, the left key must not exceed the right key (a stably sorted
slice satisfies exactly this pairwise condition). -/
def boxLe (a b : Prim) (axis : Fin 3) : Prop :=
  ∀ boxA boxB, a.box = some boxA → b.box = some boxB →
    boxA.min.get axis ≤ boxB.min.get axis

/-- `BvhNode::new` (src/raytracer/src/bvh.rs, lines 16–55) as a relation on
successful (panic-free) executions, closed over the random axis choice:

* one element: both children alias it, the node box merges its box with
  itself;
* two elements: order by `box_compare` on the random axis, the strictly
  smaller key goes left (a non-`Less` comparison swaps);
* three or more: sort by the random axis (modelled as: some permutation
  pairwise ordered by the axis key), split at `len / 2`, recurse, and the
  node box merges the children's `bounding_box()` results.

Executions in which an element's `bounding_box` is `None` panic at the
`box_compare` unwrap or at the child-box merge, so they produce no
derivation. -/
inductive Built : List Prim → HT → Prop
  | one (p : Prim) (bb : Aabb) (hbox : p.box = some bb) :
      Built [p] (.node (.prim p) (.prim p) (mergeAabbs bb bb))
  | twoLess (p q : Prim) (bp bq : Aabb) (axis : Fin 3)
      (hp : p.box = some bp) (hq : q.box = some bq)
      (hcmp : boxCompare p q axis = some .lt) :
      Built [p, q] (.node (.prim p) (.prim q) (mergeAabbs bp bq))
  | twoSwap (p q : Prim) (bp bq : Aabb) (axis : Fin 3)
      (hp : p.box = some bp) (hq : q.box = some bq)
      (o : Ordering) (hcmp : boxCompare p q axis = some o) (hne : o ≠ .lt) :
      Built [p, q] (.node (.prim q) (.prim p) (mergeAabbs bq bp))
  | many (l sorted : List Prim) (axis : Fin 3) (tl tr : HT) (bl br : Aabb)
      (hlen : 3 ≤ l.length) (hperm : sorted.Perm l)
      (hsorted : sorted.Pairwise (fun a b => boxLe a b axis))
      (hbl : Built (sorted.take (sorted.length / 2)) tl)
      (hbr : Built (sorted.drop (sorted.length / 2)) tr)
      (hrl : tl.rootBox = some bl) (hrr : tr.rootBox = some br) :
      Built l (.node tl tr (mergeAabbs bl br))

/-- `flip_face::FlipFace` (src/raytracer/src/flip_face.rs): forwards `hit`
to the wrapped primitive negating only `front_face`, and forwards
`bounding_box` unchanged. -/
def flipFace (inner : Prim) : Prim :=
  { hitF := fun r tmin tmax =>
      (inner.hitF r tmin tmax).map (fun rec => { rec with frontFace := !rec.frontFace })
    box := inner.box }

/-- `Float::signum` as used by `poly_quadratic`: `1` for non-negative
values (including `+0.0`), `-1` for negative ones. -/
noncomputable def signum (b : ℝ) : ℝ := if b < 0 then -1 else 1

/-- `math::polynomial::poly_linear` (src/math/src/polynomial.rs, lines
3–9): result is the root count together with the two root slots (slots the
function does not write keep their input values `r0, r1`). -/
noncomputable def polyLinear (a b r0 r1 : ℝ) : ℕ × ℝ × ℝ :=
  if a = 0 then (0, r0, r1) else (1, -b / a, r1)

/-- `math::polynomial::poly_quadratic` (src/math/src/polynomial.rs, lines
11–39).  `a = 0` degrades to the linear case; `Δ = b² − 4ac`;
`Δ = 0` writes `-b / 2 * a` (the literal Rust expression
`-b / T::from_i32(2).unwrap() * a`, i.e. `(-b/2)·a`) into both slots;
`Δ > 0` uses `q = −(b + signum(b)·√Δ)/2`, `t0 = q/a`, `t1 = c/q` and swaps
the slots into ascending order; `Δ < 0` reports no roots.  After the
`is_zero` test, `is_sign_positive()` on the nonzero real `Δ` is `0 < Δ`. -/
noncomputable def polyQuadratic (a b c r0 r1 : ℝ) : ℕ × ℝ × ℝ :=
  if a = 0 then polyLinear b c r0 r1
  else
    let delta := b * b - 4 * a * c
    if delta = 0 then (2, -b / 2 * a, -b / 2 * a)
    else if 0 < delta then
      let q := -(b + signum b * Real.sqrt delta) / 2
      let t0 := q / a
      let t1 := c / q
      if t1 < t0 then (2, t1, t0) else (2, t0, t1)
    else (0, r0, r1)

/-- An element of the "lights" list, abstracted by the two sampling
methods `pdf_value` and `random` of `Hittable`. -/
structure LPrim where
  pdfValue : V3 → V3 → ℚ
  random : V3 → V3

/-- `HittableList::pdf_value` (src/raytracer/src/hittable_list.rs, lines
59–69): `0` on the empty list, otherwise the `1/len`-weighted sum of the
members' `pdf_value`. -/
def listPdfValue (objects : List LPrim) (o v : V3) : ℚ :=
  if objects.isEmpty then 0
  else
    let weight := 1 / (objects.length : ℚ)
    objects.foldl (fun sum obj => sum + weight * obj.pdfValue o v) 0

/-- `HittableList::random` (src/raytracer/src/hittable_list.rs, lines
71–75): `objects[random_int(0, len − 1)].random(v)`.  On the empty list
`len() - 1` underflows the unsigned length, so the call has no result
(`none` models the panic / invalid index).  On a non-empty list the RNG is
an oracle `pick`, reduced modulo the length so that every value models an
in-range `random_int(0, len − 1)` outcome. -/
def listRandom (objects : List LPrim) (pick : ℕ) (v : V3) : Option V3 :=
  match objects with
  | [] => none
  | hd :: tl =>
    some (((hd :: tl).get ⟨pick % (hd :: tl).length, Nat.mod_lt _ (Nat.succ_pos _)⟩).random v)

/-- Shared state of one render (src/raytracer/src/main.rs): the number of
blocks still in the mutex-protected queue, the number popped but not yet
counted as done, the atomic `workblocks_done` counter, and the
cancellation flag.  (The `AtomicI32` counter starts at `0` and is only
ever incremented, so `ℕ` carries it.) -/
structure RSt where
  queue : ℕ
  pending : ℕ
  done : ℕ
  cancel : Bool
deriving DecidableEq, Repr

/-- One interleaved step of the render (worker loop, main.rs lines
1337–1409; `raytracing_finished`, lines 1438–1454):

* `pop`: a worker that passed the cancellation check pops a block from
  the queue;
* `blockDone`: a worker finishes its popped block and does
  `workblocks_done.fetch_add(1)`;
* `poll`: the coordinating thread runs `raytracing_finished` and, seeing
  `workblocks_done == total_workblocks`, does one more `fetch_add(1)`
  (the completion latch);
* `cancelReq`: `cancel_work` stores `true` into the cancellation flag. -/
inductive RStep (total : ℕ) : RSt → RSt → Prop
  | pop (q p d : ℕ) (c : Bool) :
      RStep total ⟨q + 1, p, d, c⟩ ⟨q, p + 1, d, c⟩
  | blockDone (q p d : ℕ) (c : Bool) :
      RStep total ⟨q, p + 1, d, c⟩ ⟨q, p, d + 1, c⟩
  | poll (q p : ℕ) (c : Bool) :
      RStep total ⟨q, p, total, c⟩ ⟨q, p, total + 1, c⟩
  | cancelReq (q p d : ℕ) :
      RStep total ⟨q, p, d, false⟩ ⟨q, p, d, true⟩

/-- Reachability from the initial state: all `total` blocks queued, none
pending or done, cancellation not requested. -/
inductive RReach (total : ℕ) : RSt → Prop
  | init : RReach total ⟨total, 0, 0, false⟩
  | step {s s' : RSt} : RReach total s → RStep total s s' → RReach total s'

/-- `material::ScatterRecord`: either a specular ray with an attenuation,
or a PDF (abstracted by its `value` method; `generate` is randomized and
is modelled by the integrator's direction oracle) with an attenuation. -/
inductive SRec where
  | specular (ray : RayQ) (attenuation : V3)
  | pdfRec (pdfValue : V3 → ℚ) (attenuation : V3)

/-- `material::Material` abstracted by its three methods. -/
structure Mat where
  emitted : RayQ → HitRec → ℚ → ℚ → V3 → V3
  scatter : RayQ → HitRec → Option SRec
  scatteringPdf : RayQ → HitRec → RayQ → ℚ

/-- `Camera::ray_color` (src/raytracer/src/camera.rs, lines 205–261).
`mats` resolves a hit record's material index; `lightsPdf o v` is
`lights.pdf_value(o, v)`; `gen` is the randomness oracle supplying the
direction drawn from `MixturePdf::generate` at each remaining depth;
`C_INFINITY` is `⊤`; depth is the `i32` depth, non-negative at every call
site, so `ℕ` carries it and `depth ≤ 0` is `depth = 0`.

* depth exhausted: black;
* no hit: the background color;
* hit, no scatter: the emitted radiance;
* specular scatter: `attenuation * ray_color(specular_ray, depth − 1)`;
* pdf scatter: mix the material PDF with a `HittablePdf` at the lights,
  draw a direction, clamp the mixture density away from `0` by `±1e-4`
  when `|pdf| < 1e-5`, and return
  `emitted + attenuation * scattering_pdf * ray_color(scattered, depth−1) / pdf`. -/
def rayColor (world : List Prim) (mats : ℕ → Mat) (lightsPdf : V3 → V3 → ℚ)
    (gen : ℕ → V3) (background : V3) : ℕ → RayQ → V3
  | 0, _ => V3.broadcast 0
  | d + 1, r =>
    match listHit world r (1 / 1000) ⊤ with
    | none => background
    | some rec =>
      let emitted := (mats rec.mtl).emitted r rec rec.u rec.v rec.p
      match (mats rec.mtl).scatter r rec with
      | none => emitted
      | some (.specular sray att) =>
        att.mul (rayColor world mats lightsPdf gen background d sray)
      | some (.pdfRec pv att) =>
        let dir := gen d
        let sray : RayQ := ⟨rec.p, dir, r.time⟩
        let pdfVal := 1 / 2 * lightsPdf rec.p dir + 1 / 2 * pv dir
        let pdfVal :=
          if |pdfVal| < 1 / 100000 then
            if 0 ≤ pdfVal then 1 / 10000 else -(1 / 10000)
          else pdfVal
        emitted.add
          (((att.mul
            (V3.smul ((mats rec.mtl).scatteringPdf r rec sray)
              (rayColor world mats lightsPdf gen background d sray)))).divs pdfVal)

/-- A proper box: per-axis minimum does not exceed the maximum. -/
def properAabb (bb : Aabb) : Prop := ∀ a : Fin 3, bb.min.get a ≤ bb.max.get a

/-- Box containment, per axis: `outer` encloses `inner`. -/
def containsAabb (outer inner : Aabb) : Prop :=
  ∀ a : Fin 3, outer.min.get a ≤ inner.min.get a ∧ inner.max.get a ≤ outer.max.get a

/-- The §4.2 intersection contract for a bounded scene element — the
hypotheses under which a BVH is a pure acceleration structure:
* `bounds`: a reported hit lies strictly inside the query interval;
* `narrow`: the element reports its nearest intersection in the interval,
  so lowering `t_max` keeps a strictly closer hit unchanged and turns a
  hit at or beyond the new bound into a miss;
* `boxSound`: whenever the element hits, the slab test on its bounding
  box passes for the same interval;
* `properBox`: the element is bounded and its box is proper. -/
structure WFPrim (p : Prim) : Prop where
  bounds : ∀ r tmin tmax rec, p.hitF r tmin tmax = some rec →
    tmin < rec.t ∧ (rec.t : WithTop ℚ) < tmax
  narrow : ∀ r tmin (tmax tmax' : WithTop ℚ), tmax' ≤ tmax →
    p.hitF r tmin tmax' =
      (p.hitF r tmin tmax).bind
        (fun rec => if (rec.t : WithTop ℚ) < tmax' then some rec else none)
  boxSound : ∀ r tmin tmax rec, p.hitF r tmin tmax = some rec →
    ∃ bb, p.box = some bb ∧ bb.hit r tmin tmax = true
  properBox : ∃ bb, p.box = some bb ∧ properAabb bb

/-- Structural well-formedness of a BVH subtree together with its root
box: leaves satisfy the intersection contract, and every node box
encloses its children's boxes (the builder makes it their exact merge). -/
inductive WFT : HT → Aabb → Prop
  | prim (p : Prim) (bb : Aabb) :
      WFPrim p → p.box = some bb → properAabb bb → WFT (.prim p) bb
  | node (l r : HT) (bl br bb : Aabb) :
      WFT l bl → WFT r br → containsAabb bb bl → containsAabb bb br →
      properAabb bb → WFT (.node l r bb) bb

/-- A cube-shaped test box `[m, M]³`. -/
def cBox (m M : ℚ) : Aabb := ⟨V3.broadcast m, V3.broadcast M⟩

/-- The test ray: origin at the world origin, direction `(1,1,1)`. -/
def cRay : RayQ := ⟨V3.broadcast 0, V3.broadcast 1, 0⟩

/-- A concrete test element: hits exactly the ray `cRay`, at parameter
`th`, with record `rec0`, whenever `th` lies strictly inside the query
interval; bounded by the box `[m, M]³`.  This satisfies the §4.2
contract when `rec0.t = th` and `m < th < M`. -/
def cPrim (th : ℚ) (rec0 : HitRec) (m M : ℚ) : Prim :=
  { hitF := fun r tmin tmax =>
      if r = cRay ∧ tmin < th ∧ (th : WithTop ℚ) < tmax then some rec0 else none
    box := some (cBox m M) }

/-- Test record hitting at `t = 1` with material identity `0`. -/
def cRecA : HitRec :=
  ⟨V3.broadcast 1, V3.broadcast 1, 1, 0, true, 0, 0⟩

/-- The same geometry as `cRecA` but material identity `1`. -/
def cRecB : HitRec := { cRecA with mtl := 1 }

/-- Test element with material `0`, box `[-100, 100]³`. -/
def pA : Prim := cPrim 1 cRecA (-100) 100

/-- Test element with material `1`, box `[-99, 101]³`: its box minimum is
strictly larger than `pA`'s on every axis, so every axis choice of the
builder places it right of `pA`. -/
def pB : Prim := cPrim 1 cRecB (-99) 101

/-- The (unique) BVH the builder produces over `[pA, pB]`. -/
def tAB : HT :=
  .node (.prim pA) (.prim pB) (mergeAabbs (cBox (-100) 100) (cBox (-99) 101))

/-- The BVH the builder produces over the singleton `[pA]`. -/
def tA1 : HT :=
  .node (.prim pA) (.prim pA) (mergeAabbs (cBox (-100) 100) (cBox (-100) 100))

/-- A test material: emits the constant color `(5,5,5)` and always
scatters specularly along `cRay` with attenuation `(1,1,1)`. -/
def specMat : Mat :=
  { emitted := fun _ _ _ _ _ => V3.broadcast 5
    scatter := fun _ _ => some (.specular cRay (V3.broadcast 1))
    scatteringPdf := fun _ _ _ => 0 }

/-- Material environment resolving every index to `specMat`. -/
def mats0 : ℕ → Mat := fun _ => specMat

/-- A trivial lights-list element. -/
def lp0 : LPrim := ⟨fun _ _ => 0, fun _ => V3.broadcast 1⟩

/-- An element with no bounding box (an unbounded primitive such as a
plane). -/
def badPrim : Prim := { hitF := fun _ _ _ => none, box := none }

theorem ffmin_eq_min (a b : ℚ) : ffmin a b = min a b := by
  unfold ffmin
  rcases lt_trichotomy a b with h | h | h
  · rw [if_pos h, min_eq_left h.le]
  · subst h; simp
  · rw [if_neg (not_lt.mpr h.le), min_eq_right h.le]

theorem ffmax_eq_max (a b : ℚ) : ffmax a b = max a b := by
  unfold ffmax
  rcases lt_trichotomy b a with h | h | h
  · rw [if_pos h, max_eq_left h.le]
  · subst h; simp
  · rw [if_neg (not_lt.mpr h.le), max_eq_right h.le]

theorem ffminT_eq_min (a : ℚ) (b : WithTop ℚ) : ffminT a b = min (a : WithTop ℚ) b := by
  unfold ffminT
  rcases lt_trichotomy (a : WithTop ℚ) b with h | h | h
  · rw [if_pos h, min_eq_left h.le]
  · rw [h]; simp
  · rw [if_neg (not_lt.mpr h.le), min_eq_right h.le]

theorem V3.get_broadcast (s : ℚ) (a : Fin 3) : (V3.broadcast s).get a = s := by
  fin_cases a <;> rfl

theorem mergeAabbs_min_get (A B : Aabb) (a : Fin 3) :
    (mergeAabbs A B).min.get a = min (A.min.get a) (B.min.get a) := by
  fin_cases a <;> rfl

theorem mergeAabbs_max_get (A B : Aabb) (a : Fin 3) :
    (mergeAabbs A B).max.get a = max (A.max.get a) (B.max.get a) := by
  fin_cases a <;> rfl

/-- C8: every record produced by `HitRecord::new` satisfies the
orientation invariant: `front_face` holds iff the ray direction has
negative dot product with the outward normal, the stored normal is the
outward normal exactly when `front_face` holds and its negation
otherwise, and consequently the dot product of the ray direction with the
stored normal is never positive — the stored normal always faces the
incoming ray. -/
theorem hitRecord_new_orientation (p n : V3) (ray : RayQ) (t : ℚ) (mtl : ℕ) (u v : ℚ) :
    ((HitRec.new p n ray t mtl u v).frontFace = true ↔ V3.dot ray.direction n < 0)
    ∧ ((HitRec.new p n ray t mtl u v).frontFace = true →
        (HitRec.new p n ray t mtl u v).normal = n)
    ∧ ((HitRec.new p n ray t mtl u v).frontFace = false →
        (HitRec.new p n ray t mtl u v).normal = n.neg)
    ∧ V3.dot ray.direction (HitRec.new p n ray t mtl u v).normal ≤ 0 := by
  have hneg : V3.dot ray.direction n.neg = -V3.dot ray.direction n := by
    simp only [V3.dot, V3.neg]
    ring
  by_cases h : V3.dot ray.direction n < 0
  · exact ⟨by simp [HitRec.new, h], by simp [HitRec.new, h],
      by simp [HitRec.new, h], by simpa [HitRec.new, h] using h.le⟩
  · have hge : 0 ≤ V3.dot ray.direction n := not_lt.mp h
    refine ⟨by simp [HitRec.new, h], by simp [HitRec.new, h],
      by simp [HitRec.new, h], ?_⟩
    rw [show (HitRec.new p n ray t mtl u v).normal = n.neg by simp [HitRec.new, h], hneg]
    linarith

/-- C9: `FlipFace` is the identity on geometry: it hits exactly when the
inner element hits, the returned record differs only in the negated
`front_face` flag (point, normal, `t`, material, `u`, `v` unchanged), and
its bounding box is the inner element's bounding box. -/
theorem flipFace_identity (inner : Prim) (r : RayQ) (tmin : ℚ) (tmax : WithTop ℚ) :
    (flipFace inner).box = inner.box
    ∧ ((flipFace inner).hitF r tmin tmax = none ↔ inner.hitF r tmin tmax = none)
    ∧ ∀ rec, inner.hitF r tmin tmax = some rec →
        (flipFace inner).hitF r tmin tmax =
          some { rec with frontFace := !rec.frontFace } := by
  refine ⟨rfl, ?_, ?_⟩
  · cases h : inner.hitF r tmin tmax <;> simp [flipFace, h]
  · intro rec h
    simp [flipFace, h]

/-- Witness for C9 at the concrete element `pA` and ray `cRay`. -/
theorem flipFace_identity_witness :
    (flipFace pA).box = pA.box
    ∧ ((flipFace pA).hitF cRay 0 ⊤ = none ↔ pA.hitF cRay 0 ⊤ = none)
    ∧ (flipFace pA).hitF cRay 0 ⊤ = some { cRecA with frontFace := !cRecA.frontFace } := by
  have h := flipFace_identity pA cRay 0 ⊤
  exact ⟨h.1, h.2.1, h.2.2 cRecA (by decide)⟩

/-- C10: `HittableList::pdf_value` on the empty list returns `0`, while
`HittableList::random` on the empty list has no result (the unsigned
`len() - 1` underflows and the lookup fails) — so `random` carries the
unstated precondition that the list is non-empty, under which it does
return a direction. -/
theorem lights_list_empty_edge (o v : V3) (pick : ℕ) :
    listPdfValue [] o v = 0
    ∧ listRandom [] pick v = none
    ∧ ∀ objects : List LPrim, objects ≠ [] →
        ∃ d, listRandom objects pick v = some d := by
  refine ⟨rfl, rfl, ?_⟩
  intro objs h
  cases objs with
  | nil => exact absurd rfl h
  | cons hd tl => exact ⟨_, rfl⟩

/-- Witness for C10: the empty list and the singleton `[lp0]`. -/
theorem lights_list_empty_edge_witness :
    listPdfValue [] (V3.broadcast 0) (V3.broadcast 0) = 0
    ∧ listRandom [] 0 (V3.broadcast 0) = none
    ∧ ∃ d, listRandom [lp0] 0 (V3.broadcast 0) = some d := by
  have h := lights_list_empty_edge (V3.broadcast 0) (V3.broadcast 0) 0
  exact ⟨h.1, h.2.1, h.2.2 [lp0] (by simp)⟩

theorem rreach_invariant (total : ℕ) (s : RSt) (h : RReach total s) :
    s.done + s.queue + s.pending ≤ total
    ∨ (s.done = total + 1 ∧ s.queue = 0 ∧ s.pending = 0) := by
  induction h with
  | init => left; simp
  | step _ hstep ih => cases hstep <;> simp_all <;> omega

/-- C4 (amended): in every reachable state of the render's step relation
the shared completed-block counter is at most `total + 1`: worker
increments alone never push it past `total`, and the single extra
increment is the coordinator's completion latch in `raytracing_finished`,
which fires only once, when the counter already equals `total`. -/
theorem workblocks_done_bound (total : ℕ) (s : RSt) (h : RReach total s) :
    s.done ≤ total + 1 := by
  have hinv := rreach_invariant total s h
  rcases hinv with h1 | h2
  · omega
  · omega

theorem rreach_trace : RReach 1 ⟨0, 0, 2, true⟩ :=
  ((((RReach.init.step (.pop 0 0 0 false)).step
    (.cancelReq 0 1 0)).step (.blockDone 0 0 0 true)).step (.poll 0 0 true))

/-- C4 counterexample: with a single work block, after the worker pops
the block, cancellation is requested, the worker finishes and counts the
block, and the coordinator polls `raytracing_finished`, the counter holds
`2 > 1 = total_workblocks` — the claim `workblocks_done ≤
total_workblocks` fails in this reachable (post-cancellation) state. -/
theorem workblocks_done_counterexample :
    RReach 1 ⟨0, 0, 2, true⟩ ∧ ¬(RSt.done ⟨0, 0, 2, true⟩ ≤ 1) :=
  ⟨rreach_trace, by simp⟩

/-- Witness for C4 (amended) at the concrete reachable state of the
one-block trace. -/
theorem workblocks_done_bound_witness :
    RReach 1 ⟨0, 0, 2, true⟩ ∧ RSt.done ⟨0, 0, 2, true⟩ ≤ 1 + 1 :=
  ⟨rreach_trace, workblocks_done_bound 1 ⟨0, 0, 2, true⟩ rreach_trace⟩

/-- C5 (amended): the default `Aabb` uses the extreme finite `f32` values
`min = f32::MAX`, `max = f32::MIN = -f32::MAX` on every axis (not `±∞`);
merging any box whose coordinates are representable (within
`[-f32::MAX, f32::MAX]`, as every finite `f32` is) with the default box
yields that box, and `merge_aabbs` is commutative and associative. -/
theorem merge_default_aabb (B : Aabb)
    (hin : ∀ axis : Fin 3,
      B.min.get axis ≤ f32MAX ∧ -f32MAX ≤ B.max.get axis) :
    mergeAabbs B Aabb.default = B
    ∧ (∀ A C, mergeAabbs A C = mergeAabbs C A)
    ∧ (∀ A C D, mergeAabbs (mergeAabbs A C) D = mergeAabbs A (mergeAabbs C D)) := by
  refine ⟨?_, ?_, ?_⟩
  · have h0 := hin 0
    have h1 := hin 1
    have h2 := hin 2
    simp only [V3.get] at h0 h1 h2
    cases B with
    | mk bmin bmax =>
      cases bmin
      cases bmax
      simp only [mergeAabbs, Aabb.default, V3.broadcast] at *
      congr 1 <;> simp_all [min_eq_left, max_eq_left]
  · intro A C
    simp [mergeAabbs, min_comm, max_comm]
  · intro A C D
    simp [mergeAabbs, min_assoc, max_assoc]

/-- C5 counterexample: the default box's sentinels are finite — its
per-axis minimum is strictly below the rational `f32MAX + 1` and its
maximum strictly above `-(f32MAX + 1)` — contradicting the claim that the
default box carries `min = +∞` and `max = −∞`. -/
theorem aabb_default_finite_counterexample :
    Aabb.default.min.x < f32MAX + 1 ∧ -(f32MAX + 1) < Aabb.default.max.x := by
  constructor <;> norm_num [Aabb.default, V3.broadcast, f32MAX]

/-- Witness for C5 (amended) at the concrete box `[0,1]³`. -/
theorem merge_default_aabb_witness :
    mergeAabbs (cBox 0 1) Aabb.default = cBox 0 1
    ∧ mergeAabbs (cBox 0 1) (cBox 2 3) = mergeAabbs (cBox 2 3) (cBox 0 1) := by
  have h := merge_default_aabb (cBox 0 1) (by
    intro axis
    fin_cases axis <;> norm_num [cBox, V3.broadcast, V3.get, f32MAX])
  exact ⟨h.1, h.2.1 (cBox 0 1) (cBox 2 3)⟩

/-- C3: the `Δ = 0` branch of `poly_quadratic` is a code bug.  The Rust
expression `-b / T::from_i32(2).unwrap() * a` parses as `(-b / 2) * a`,
not `-b / (2 * a)`.  At `a = 2, b = 4, c = 2` (so `Δ = 0`) the code
returns count `2` with `-4` in both slots, but `-4` does not satisfy the
quadratic, while the documented double root `-b/(2a) = -1` does. -/
theorem polyQuadratic_double_root_bug :
    polyQuadratic 2 4 2 0 0 = (2, -4, -4)
    ∧ ¬((2 : ℝ) * (-4 : ℝ) ^ 2 + 4 * (-4 : ℝ) + 2 = 0)
    ∧ -(4 : ℝ) / (2 * 2) = -1
    ∧ (2 : ℝ) * (-1 : ℝ) ^ 2 + 4 * (-1 : ℝ) + 2 = 0 := by
  refine ⟨?_, by norm_num, by norm_num, by norm_num⟩
  have h2 : (2 : ℝ) ≠ 0 := by norm_num
  have hδ : (4 : ℝ) * 4 - 4 * 2 * 2 = 0 := by norm_num
  simp only [polyQuadratic, if_neg h2, hδ, if_pos rfl]
  norm_num

theorem quad_first_root (A B C q : ℝ) (hA : A ≠ 0)
    (key : q * q + B * q + A * C = 0) :
    A * (q / A) ^ 2 + B * (q / A) + C = 0 := by
  have hmul : (A * (q / A) ^ 2 + B * (q / A) + C) * A = q * q + B * q + A * C := by
    field_simp
    ring
  have h0 : (A * (q / A) ^ 2 + B * (q / A) + C) * A = 0 := by rw [hmul, key]
  exact (mul_eq_zero.mp h0).resolve_right hA

theorem quad_second_root (A B C q : ℝ) (hq : q ≠ 0)
    (key : q * q + B * q + A * C = 0) :
    A * (C / q) ^ 2 + B * (C / q) + C = 0 := by
  have hq2 : q * q ≠ 0 := mul_ne_zero hq hq
  have hmul : (A * (C / q) ^ 2 + B * (C / q) + C) * (q * q)
      = C * (q * q + B * q + A * C) := by
    field_simp
    ring
  have h0 : (A * (C / q) ^ 2 + B * (C / q) + C) * (q * q) = 0 := by
    rw [hmul, key, mul_zero]
  exact (mul_eq_zero.mp h0).resolve_right hq2

theorem quad_root_facts (a b c : ℝ) (ha : a ≠ 0) (hΔ : 0 < b * b - 4 * a * c) :
    -(b + signum b * Real.sqrt (b * b - 4 * a * c)) / 2 ≠ 0
    ∧ a * ((-(b + signum b * Real.sqrt (b * b - 4 * a * c)) / 2) / a) ^ 2
        + b * ((-(b + signum b * Real.sqrt (b * b - 4 * a * c)) / 2) / a) + c = 0
    ∧ a * (c / (-(b + signum b * Real.sqrt (b * b - 4 * a * c)) / 2)) ^ 2
        + b * (c / (-(b + signum b * Real.sqrt (b * b - 4 * a * c)) / 2)) + c = 0 := by
  have hr : 0 < Real.sqrt (b * b - 4 * a * c) := Real.sqrt_pos.mpr hΔ
  have hsq : Real.sqrt (b * b - 4 * a * c) * Real.sqrt (b * b - 4 * a * c)
      = b * b - 4 * a * c := Real.mul_self_sqrt hΔ.le
  have hss : signum b * signum b = 1 := by
    unfold signum
    by_cases hb : b < 0 <;> simp [hb]
  have hsum : b + signum b * Real.sqrt (b * b - 4 * a * c) ≠ 0 := by
    unfold signum
    by_cases hb : b < 0
    · rw [if_pos hb]
      nlinarith
    · rw [if_neg hb]
      push_neg at hb
      nlinarith
  have hqne : -(b + signum b * Real.sqrt (b * b - 4 * a * c)) / 2 ≠ 0 :=
    div_ne_zero (neg_ne_zero.mpr hsum) two_ne_zero
  have key : (-(b + signum b * Real.sqrt (b * b - 4 * a * c)) / 2)
        * (-(b + signum b * Real.sqrt (b * b - 4 * a * c)) / 2)
      + b * (-(b + signum b * Real.sqrt (b * b - 4 * a * c)) / 2) + a * c = 0 := by
    have expand : (-(b + signum b * Real.sqrt (b * b - 4 * a * c)) / 2)
          * (-(b + signum b * Real.sqrt (b * b - 4 * a * c)) / 2)
        + b * (-(b + signum b * Real.sqrt (b * b - 4 * a * c)) / 2) + a * c
        = ((signum b * signum b)
            * (Real.sqrt (b * b - 4 * a * c) * Real.sqrt (b * b - 4 * a * c))
          - (b * b - 4 * a * c)) / 4 := by
      ring
    rw [expand, hss, hsq]
    ring
  exact ⟨hqne, quad_first_root a b c _ ha key, quad_second_root a b c _ hqne key⟩

/-- C6: the remaining branches of `poly_quadratic` are correct.  For
`a ≠ 0` and `Δ > 0` it returns exactly two roots in ascending order, both
satisfying the quadratic exactly (the rational model has no rounding), and
they are `{q/a, c/q}` for the numerically-stable
`q = −(b + sign(b)·√Δ)/2`; for `Δ < 0` it returns zero roots; for
`a = 0, b ≠ 0` it returns exactly one root `−c/b`. -/
theorem polyQuadratic_branches (a b c r0 r1 : ℝ) :
    (a ≠ 0 → 0 < b * b - 4 * a * c →
      (polyQuadratic a b c r0 r1).1 = 2
      ∧ (polyQuadratic a b c r0 r1).2.1 ≤ (polyQuadratic a b c r0 r1).2.2
      ∧ a * (polyQuadratic a b c r0 r1).2.1 ^ 2
          + b * (polyQuadratic a b c r0 r1).2.1 + c = 0
      ∧ a * (polyQuadratic a b c r0 r1).2.2 ^ 2
          + b * (polyQuadratic a b c r0 r1).2.2 + c = 0
      ∧ (((polyQuadratic a b c r0 r1).2.1
            = (-(b + signum b * Real.sqrt (b * b - 4 * a * c)) / 2) / a
          ∧ (polyQuadratic a b c r0 r1).2.2
            = c / (-(b + signum b * Real.sqrt (b * b - 4 * a * c)) / 2))
        ∨ ((polyQuadratic a b c r0 r1).2.1
            = c / (-(b + signum b * Real.sqrt (b * b - 4 * a * c)) / 2)
          ∧ (polyQuadratic a b c r0 r1).2.2
            = (-(b + signum b * Real.sqrt (b * b - 4 * a * c)) / 2) / a)))
    ∧ (a ≠ 0 → b * b - 4 * a * c < 0 → (polyQuadratic a b c r0 r1).1 = 0)
    ∧ (a = 0 → b ≠ 0 →
        (polyQuadratic a b c r0 r1).1 = 1
        ∧ (polyQuadratic a b c r0 r1).2.1 = -c / b) := by
  refine ⟨?_, ?_, ?_⟩
  · intro ha hΔ
    have hδne : b * b - 4 * a * c ≠ 0 := ne_of_gt hΔ
    have hfacts := quad_root_facts a b c ha hΔ
    unfold polyQuadratic
    rw [if_neg ha]
    simp only [if_neg hδne, if_pos hΔ]
    split_ifs with hlt
    · exact ⟨rfl, le_of_lt hlt, hfacts.2.2, hfacts.2.1, Or.inr ⟨rfl, rfl⟩⟩
    · exact ⟨rfl, not_lt.mp hlt, hfacts.2.1, hfacts.2.2, Or.inl ⟨rfl, rfl⟩⟩
  · intro ha hΔ
    have hδne : b * b - 4 * a * c ≠ 0 := ne_of_lt hΔ
    unfold polyQuadratic
    rw [if_neg ha]
    simp only [if_neg hδne, if_neg (not_lt.mpr hΔ.le)]
  · intro ha hb
    unfold polyQuadratic polyLinear
    rw [if_pos ha, if_neg hb]
    exact ⟨rfl, rfl⟩

/-- Witness for C6: the three branches at `(1, 0, −4)`, `(1, 2, 3)` and
`(0, 2, 6)`. -/
theorem polyQuadratic_branches_witness :
    ((polyQuadratic 1 0 (-4) 0 0).1 = 2
      ∧ (polyQuadratic 1 0 (-4) 0 0).2.1 ≤ (polyQuadratic 1 0 (-4) 0 0).2.2
      ∧ 1 * (polyQuadratic 1 0 (-4) 0 0).2.1 ^ 2
          + 0 * (polyQuadratic 1 0 (-4) 0 0).2.1 + -4 = 0)
    ∧ (polyQuadratic 1 2 3 0 0).1 = 0
    ∧ (polyQuadratic 0 2 6 0 0).1 = 1
    ∧ (polyQuadratic 0 2 6 0 0).2.1 = -6 / 2 := by
  have h1 := (polyQuadratic_branches 1 0 (-4) 0 0).1 (by norm_num) (by norm_num)
  have h2 := (polyQuadratic_branches 1 2 3 0 0).2.1 (by norm_num) (by norm_num)
  have h3 := (polyQuadratic_branches 0 2 6 0 0).2.2 rfl (by norm_num)
  exact ⟨⟨h1.1, h1.2.1, h1.2.2.1⟩, h2, h3.1, h3.2⟩

/-- C2 (amended): whenever `ray_color` hits and the material's scatter
returns a specular record, the returned color is
`attenuation * ray_color(specular_ray, depth − 1)` — with no PDF division
and, unlike the claim, with no `emitted` term added: the code's specular
arm drops the emitted radiance. -/
theorem ray_color_specular (world : List Prim) (mats : ℕ → Mat)
    (lightsPdf : V3 → V3 → ℚ) (gen : ℕ → V3) (background : V3)
    (r : RayQ) (d : ℕ) (rec : HitRec) (sray : RayQ) (att : V3)
    (hhit : listHit world r (1 / 1000) ⊤ = some rec)
    (hscat : (mats rec.mtl).scatter r rec = some (.specular sray att)) :
    rayColor world mats lightsPdf gen background (d + 1) r =
      att.mul (rayColor world mats lightsPdf gen background d sray) := by
  simp only [rayColor]
  rw [hhit]
  simp [hscat]

theorem pA_hit_eval : listHit [pA] cRay (1 / 1000) ⊤ = some cRecA := by
  simp only [listHit, pA, cPrim, List.filterMap_cons, List.filterMap_nil]
  norm_num [WithTop.coe_lt_top, minByT]

/-- C2 counterexample: a one-element scene whose material emits `(5,5,5)`
and scatters specularly with attenuation `(1,1,1)`.  At depth 1 the code
returns `(0,0,0)` (attenuation times the depth-0 black), whereas
`emitted + attenuation * ray_color(specular_ray, depth−1)` is `(5,5,5)`:
the specular arm omits the emitted term. -/
theorem ray_color_specular_counterexample :
    rayColor [pA] mats0 (fun _ _ => 0) (fun _ => V3.broadcast 0)
        (V3.broadcast 0) 1 cRay = V3.broadcast 0
    ∧ (specMat.emitted cRay cRecA cRecA.u cRecA.v cRecA.p).add
        ((V3.broadcast 1).mul
          (rayColor [pA] mats0 (fun _ _ => 0) (fun _ => V3.broadcast 0)
            (V3.broadcast 0) 0 cRay)) = V3.broadcast 5
    ∧ V3.broadcast (0 : ℚ) ≠ V3.broadcast (5 : ℚ) := by
  have hrec : rayColor [pA] mats0 (fun _ _ => 0) (fun _ => V3.broadcast 0)
      (V3.broadcast 0) 0 cRay = V3.broadcast 0 := rfl
  refine ⟨?_, ?_, ?_⟩
  · rw [show (1 : ℕ) = 0 + 1 from rfl,
      ray_color_specular [pA] mats0 (fun _ _ => 0) (fun _ => V3.broadcast 0)
        (V3.broadcast 0) cRay 0 cRecA cRay (V3.broadcast 1) pA_hit_eval rfl,
      hrec]
    norm_num [V3.mul, V3.broadcast]
  · rw [hrec]
    norm_num [V3.mul, V3.add, V3.broadcast, specMat]
  · intro h
    have hx : (0 : ℚ) = 5 := congrArg V3.x h
    norm_num at hx

/-- Witness for C2 (amended) on the same concrete scene. -/
theorem ray_color_specular_witness :
    rayColor [pA] mats0 (fun _ _ => 0) (fun _ => V3.broadcast 0)
        (V3.broadcast 0) 1 cRay
      = (V3.broadcast 1).mul
          (rayColor [pA] mats0 (fun _ _ => 0) (fun _ => V3.broadcast 0)
            (V3.broadcast 0) 0 cRay) :=
  ray_color_specular [pA] mats0 (fun _ _ => 0) (fun _ => V3.broadcast 0)
    (V3.broadcast 0) cRay 0 cRecA cRay (V3.broadcast 1) pA_hit_eval rfl

theorem built_boxes {l : List Prim} {T : HT} (h : Built l T) :
    ∀ p ∈ l, ∃ bb, p.box = some bb := by
  induction h with
  | one p bb hbox =>
    intro x hx
    rw [List.mem_singleton] at hx
    subst hx
    exact ⟨bb, hbox⟩
  | twoLess p q bp bq axis hp hq hcmp =>
    intro x hx
    rcases List.mem_pair.mp hx with h1 | h1 <;> subst h1
    · exact ⟨bp, hp⟩
    · exact ⟨bq, hq⟩
  | twoSwap p q bp bq axis hp hq o hcmp hne =>
    intro x hx
    rcases List.mem_pair.mp hx with h1 | h1 <;> subst h1
    · exact ⟨bp, hp⟩
    · exact ⟨bq, hq⟩
  | many l sorted axis tl tr bl br hlen hperm hsorted hbl hbr hrl hrr ihl ihr =>
    intro x hx
    have hx2 : x ∈ sorted := hperm.mem_iff.mpr hx
    rw [← List.take_append_drop (sorted.length / 2) sorted] at hx2
    rcases List.mem_append.mp hx2 with h1 | h1
    · exact ihl x h1
    · exact ihr x h1

/-- C7: handing the BVH builder any element whose `bounding_box` is `None`
is fatal: no successful (panic-free) build execution exists over a list
containing such an element — the builder never skips it, returns an
error, or produces a tree (the merge of child boxes unwraps `None`) — and
the axis-sort comparator `box_compare` likewise panics (has no result)
whenever either side lacks a box. -/
theorem bvh_build_unbounded_fatal (l : List Prim) (a : Prim)
    (hmem : a ∈ l) (hnone : a.box = none) :
    (∀ T, ¬ Built l T)
    ∧ (∀ b axis, boxCompare a b axis = none ∧ boxCompare b a axis = none) := by
  constructor
  · intro T hT
    obtain ⟨bb, hbb⟩ := built_boxes hT a hmem
    rw [hnone] at hbb
    exact Option.noConfusion hbb
  · intro b axis
    constructor
    · cases hb : b.box <;> simp [boxCompare, hnone, hb]
    · cases hb : b.box <;> simp [boxCompare, hnone, hb]

/-- Witness for C7: the boxless element `badPrim`. -/
theorem bvh_build_unbounded_fatal_witness :
    (∀ T, ¬ Built [badPrim] T) ∧ boxCompare badPrim badPrim 0 = none := by
  have h := bvh_build_unbounded_fatal [badPrim] badPrim (List.mem_singleton.mpr rfl) rfl
  exact ⟨h.1, (h.2 badPrim 0).1⟩

theorem containsAabb_rfl (bb : Aabb) : containsAabb bb bb :=
  fun _ => ⟨le_rfl, le_rfl⟩

theorem containsAabb_trans {a b c : Aabb}
    (h1 : containsAabb a b) (h2 : containsAabb b c) : containsAabb a c :=
  fun ax => ⟨(h1 ax).1.trans (h2 ax).1, (h2 ax).2.trans (h1 ax).2⟩

theorem containsAabb_merge_left (a b : Aabb) : containsAabb (mergeAabbs a b) a := by
  intro ax
  rw [mergeAabbs_min_get, mergeAabbs_max_get]
  exact ⟨min_le_left _ _, le_max_left _ _⟩

theorem containsAabb_merge_right (a b : Aabb) : containsAabb (mergeAabbs a b) b := by
  intro ax
  rw [mergeAabbs_min_get, mergeAabbs_max_get]
  exact ⟨min_le_right _ _, le_max_right _ _⟩

theorem properAabb_merge {a b : Aabb} (ha : properAabb a) (hb : properAabb b) :
    properAabb (mergeAabbs a b) := by
  intro ax
  rw [mergeAabbs_min_get, mergeAabbs_max_get]
  exact le_trans (min_le_left _ _) (le_trans (ha ax) (le_max_left _ _))

theorem wft_proper {T : HT} {b : Aabb} (h : WFT T b) : properAabb b := by
  cases h with
  | prim p bb hwf hbox hp => exact hp
  | node l r bl br bb hl hr hcl hcr hp => exact hp

theorem slab_mono (A B : Aabb) (r : RayQ) (a : Fin 3)
    (hc : containsAabb B A) (hp : properAabb A)
    (accA accB : ℚ × WithTop ℚ) (h1 : accB.1 ≤ accA.1) (h2 : accA.2 ≤ accB.2) :
    (B.slab r a accB).1 ≤ (A.slab r a accA).1
      ∧ (A.slab r a accA).2 ≤ (B.slab r a accB).2 := by
  obtain ⟨hmin, hmax⟩ := hc a
  have hpa := hp a
  simp only [Aabb.slab, ffmin_eq_min, ffmax_eq_max, ffminT_eq_min]
  set d := 1 / r.direction.get a with hd
  set o := r.origin.get a with ho
  have hkey : min ((B.min.get a - o) * d) ((B.max.get a - o) * d)
        ≤ min ((A.min.get a - o) * d) ((A.max.get a - o) * d)
      ∧ max ((A.min.get a - o) * d) ((A.max.get a - o) * d)
        ≤ max ((B.min.get a - o) * d) ((B.max.get a - o) * d) := by
    rcases lt_trichotomy d 0 with hneg | hzero | hpos
    · have l2 : (B.max.get a - o) * d ≤ (A.max.get a - o) * d :=
        mul_le_mul_of_nonpos_right (by linarith) hneg.le
      have l3 : (A.max.get a - o) * d ≤ (A.min.get a - o) * d :=
        mul_le_mul_of_nonpos_right (by linarith) hneg.le
      have l4 : (A.min.get a - o) * d ≤ (B.min.get a - o) * d :=
        mul_le_mul_of_nonpos_right (by linarith) hneg.le
      constructor
      · refine le_min ?_ ?_
        · exact le_trans (min_le_right _ _) (le_trans l2 l3)
        · exact le_trans (min_le_right _ _) l2
      · refine max_le ?_ ?_
        · exact le_trans l4 (le_max_left _ _)
        · exact le_trans l3 (le_trans l4 (le_max_left _ _))
    · rw [hzero]
      simp
    · have l1 : (B.min.get a - o) * d ≤ (A.min.get a - o) * d :=
        mul_le_mul_of_nonneg_right (by linarith) hpos.le
      have l2 : (A.max.get a - o) * d ≤ (B.max.get a - o) * d :=
        mul_le_mul_of_nonneg_right (by linarith) hpos.le
      have l3 : (A.min.get a - o) * d ≤ (A.max.get a - o) * d :=
        mul_le_mul_of_nonneg_right (by linarith) hpos.le
      constructor
      · refine le_min ?_ ?_
        · exact le_trans (min_le_left _ _) l1
        · exact le_trans (min_le_left _ _) (le_trans l1 l3)
      · refine max_le ?_ ?_
        · exact le_trans l3 (le_trans l2 (le_max_right _ _))
        · exact le_trans l2 (le_max_right _ _)
  exact ⟨max_le_max hkey.1 h1, min_le_min (WithTop.coe_le_coe.mpr hkey.2) h2⟩

theorem aabbHit_mono (A B : Aabb) (r : RayQ) (tmin : ℚ) (tmax : WithTop ℚ)
    (hc : containsAabb B A) (hp : properAabb A)
    (h : A.hit r tmin tmax = true) : B.hit r tmin tmax = true := by
  have m0 := slab_mono A B r 0 hc hp (tmin, tmax) (tmin, tmax) le_rfl le_rfl
  have m1 := slab_mono A B r 1 hc hp (A.slab r 0 (tmin, tmax))
    (B.slab r 0 (tmin, tmax)) m0.1 m0.2
  have m2 := slab_mono A B r 2 hc hp (A.slab r 1 (A.slab r 0 (tmin, tmax)))
    (B.slab r 1 (B.slab r 0 (tmin, tmax))) m1.1 m1.2
  simp only [Aabb.hit] at h ⊢
  by_cases c0 : (A.slab r 0 (tmin, tmax)).2 ≤ ((A.slab r 0 (tmin, tmax)).1 : WithTop ℚ)
  · rw [if_pos c0] at h
    exact absurd h (by simp)
  rw [if_neg c0] at h
  by_cases c1 : (A.slab r 1 (A.slab r 0 (tmin, tmax))).2
      ≤ ((A.slab r 1 (A.slab r 0 (tmin, tmax))).1 : WithTop ℚ)
  · rw [if_pos c1] at h
    exact absurd h (by simp)
  rw [if_neg c1] at h
  by_cases c2 : (A.slab r 2 (A.slab r 1 (A.slab r 0 (tmin, tmax)))).2
      ≤ ((A.slab r 2 (A.slab r 1 (A.slab r 0 (tmin, tmax)))).1 : WithTop ℚ)
  · rw [if_pos c2] at h
    exact absurd h (by simp)
  have b0 : ¬ ((B.slab r 0 (tmin, tmax)).2 ≤ ((B.slab r 0 (tmin, tmax)).1 : WithTop ℚ)) :=
    fun hle => c0 (le_trans m0.2 (hle.trans (WithTop.coe_le_coe.mpr m0.1)))
  have b1 : ¬ ((B.slab r 1 (B.slab r 0 (tmin, tmax))).2
      ≤ ((B.slab r 1 (B.slab r 0 (tmin, tmax))).1 : WithTop ℚ)) :=
    fun hle => c1 (le_trans m1.2 (hle.trans (WithTop.coe_le_coe.mpr m1.1)))
  have b2 : ¬ ((B.slab r 2 (B.slab r 1 (B.slab r 0 (tmin, tmax)))).2
      ≤ ((B.slab r 2 (B.slab r 1 (B.slab r 0 (tmin, tmax)))).1 : WithTop ℚ)) :=
    fun hle => c2 (le_trans m2.2 (hle.trans (WithTop.coe_le_coe.mpr m2.1)))
  rw [if_neg b0, if_neg b1, if_neg b2]

theorem wft_leaf_props {T : HT} {b : Aabb} (h : WFT T b) :
    ∀ p ∈ T.leaves, WFPrim p
      ∧ ∃ bp, p.box = some bp ∧ properAabb bp ∧ containsAabb b bp := by
  induction h with
  | prim p bb hwf hbox hp =>
    intro x hx
    rw [HT.leaves, List.mem_singleton] at hx
    subst hx
    exact ⟨hwf, bb, hbox, hp, containsAabb_rfl bb⟩
  | node l r bl br bb hl hr hcl hcr hp ihl ihr =>
    intro x hx
    rw [HT.leaves, List.mem_append] at hx
    rcases hx with h1 | h1
    · obtain ⟨hwf, bp, hb1, hb2, hb3⟩ := ihl x h1
      exact ⟨hwf, bp, hb1, hb2, containsAabb_trans hcl hb3⟩
    · obtain ⟨hwf, bp, hb1, hb2, hb3⟩ := ihr x h1
      exact ⟨hwf, bp, hb1, hb2, containsAabb_trans hcr hb3⟩

theorem treeHit_spec {T : HT} {b : Aabb} (hwf : WFT T b) (r : RayQ) :
    ∀ (tmin : ℚ) (tmax : WithTop ℚ),
      (treeHit T r tmin tmax = none ↔ ∀ p ∈ T.leaves, p.hitF r tmin tmax = none)
      ∧ ∀ rec, treeHit T r tmin tmax = some rec →
          (tmin < rec.t ∧ (rec.t : WithTop ℚ) < tmax)
          ∧ (∃ p ∈ T.leaves, p.hitF r tmin tmax = some rec)
          ∧ ∀ p ∈ T.leaves, ∀ rec2, p.hitF r tmin tmax = some rec2 → rec.t ≤ rec2.t := by
  induction hwf with
  | prim p bb hwfp hbox hp =>
    intro tmin tmax
    constructor
    · simp [treeHit, HT.leaves]
    · intro rec hrec
      refine ⟨hwfp.bounds r tmin tmax rec hrec, ⟨p, by simp [HT.leaves], hrec⟩, ?_⟩
      intro q hq rec2 hrec2
      rw [HT.leaves, List.mem_singleton] at hq
      subst hq
      have hrec1 : q.hitF r tmin tmax = some rec := hrec
      rw [hrec1] at hrec2
      injection hrec2 with he
      rw [he]
  | node l rt bl br bb hwl hwr hcl hcr hp ihl ihr =>
    intro tmin tmax
    by_cases hbox : bb.hit r tmin tmax = false
    · have hnone : treeHit (.node l rt bb) r tmin tmax = none := by
        simp [treeHit, hbox]
      have hleaf : ∀ p ∈ (HT.node l rt bb).leaves, p.hitF r tmin tmax = none := by
        intro p hpmem
        obtain ⟨hwfp, bp, hbp, hbpp, hbc⟩ :=
          wft_leaf_props (WFT.node l rt bl br bb hwl hwr hcl hcr hp) p hpmem
        by_contra hne
        rcases Option.ne_none_iff_exists'.mp hne with ⟨rec, hrec⟩
        obtain ⟨bb2, hbb2, hhit2⟩ := hwfp.boxSound r tmin tmax rec hrec
        rw [hbp] at hbb2
        injection hbb2 with heb
        rw [← heb] at hhit2
        have := aabbHit_mono bp bb r tmin tmax hbc hbpp hhit2
        rw [this] at hbox
        exact Bool.noConfusion hbox
      refine ⟨⟨fun _ => hleaf, fun _ => hnone⟩, ?_⟩
      intro rec hrec
      rw [hnone] at hrec
      exact absurd hrec (by simp)
    · cases hhl : treeHit l r tmin tmax with
      | none =>
        cases hhr : treeHit rt r tmin tmax with
        | none =>
          have heq : treeHit (.node l rt bb) r tmin tmax = none := by
            simp [treeHit, hbox, hhl, hhr]
          constructor
          · rw [heq]
            refine ⟨fun _ p hpmem => ?_, fun _ => rfl⟩
            rw [HT.leaves, List.mem_append] at hpmem
            rcases hpmem with h1 | h1
            · exact ((ihl tmin tmax).1.mp hhl) p h1
            · exact ((ihr tmin tmax).1.mp hhr) p h1
          · intro rec hrec
            rw [heq] at hrec
            exact absurd hrec (by simp)
        | some b2 =>
          have heq : treeHit (.node l rt bb) r tmin tmax = some b2 := by
            simp [treeHit, hbox, hhl, hhr]
          have hrfacts := (ihr tmin tmax).2 b2 hhr
          constructor
          · rw [heq]
            refine ⟨fun h => absurd h (by simp), fun hall => ?_⟩
            obtain ⟨q, hqmem, hq⟩ := hrfacts.2.1
            have := hall q (by rw [HT.leaves, List.mem_append]; right; exact hqmem)
            rw [this] at hq
            exact absurd hq (by simp)
          · intro rec hrec
            rw [heq] at hrec
            injection hrec with he
            subst he
            refine ⟨hrfacts.1, ?_, ?_⟩
            · obtain ⟨q, hqmem, hq⟩ := hrfacts.2.1
              exact ⟨q, by rw [HT.leaves, List.mem_append]; right; exact hqmem, hq⟩
            · intro q hqmem rec2 hrec2
              rw [HT.leaves, List.mem_append] at hqmem
              rcases hqmem with h1 | h1
              · have := ((ihl tmin tmax).1.mp hhl) q h1
                rw [this] at hrec2
                exact absurd hrec2 (by simp)
              · exact hrfacts.2.2 q h1 rec2 hrec2
      | some a =>
        have hlfacts := (ihl tmin tmax).2 a hhl
        cases hhr : treeHit rt r tmin ((a.t : ℚ) : WithTop ℚ) with
        | none =>
          have heq : treeHit (.node l rt bb) r tmin tmax = some a := by
            simp [treeHit, hbox, hhl, hhr]
          constructor
          · rw [heq]
            refine ⟨fun h => absurd h (by simp), fun hall => ?_⟩
            obtain ⟨q, hqmem, hq⟩ := hlfacts.2.1
            have := hall q (by rw [HT.leaves, List.mem_append]; left; exact hqmem)
            rw [this] at hq
            exact absurd hq (by simp)
          · intro rec hrec
            rw [heq] at hrec
            injection hrec with he
            subst he
            refine ⟨hlfacts.1, ?_, ?_⟩
            · obtain ⟨q, hqmem, hq⟩ := hlfacts.2.1
              exact ⟨q, by rw [HT.leaves, List.mem_append]; left; exact hqmem, hq⟩
            · intro q hqmem rec2 hrec2
              rw [HT.leaves, List.mem_append] at hqmem
              rcases hqmem with h1 | h1
              · exact hlfacts.2.2 q h1 rec2 hrec2
              · by_contra hlt
                push_neg at hlt
                have hqwf := (wft_leaf_props hwr q h1).1
                have hnarrow := hqwf.narrow r tmin tmax ((a.t : ℚ) : WithTop ℚ)
                  (le_of_lt hlfacts.1.2)
                have hcoe : ((rec2.t : ℚ) : WithTop ℚ) < ((a.t : ℚ) : WithTop ℚ) :=
                  WithTop.coe_lt_coe.mpr hlt
                rw [hrec2, Option.some_bind, if_pos hcoe] at hnarrow
                have hqnone := ((ihr tmin ((a.t : ℚ) : WithTop ℚ)).1.mp hhr) q h1
                rw [hqnone] at hnarrow
                exact absurd hnarrow.symm (by simp)
        | some b2 =>
          have hrfacts := (ihr tmin ((a.t : ℚ) : WithTop ℚ)).2 b2 hhr
          have hblt : b2.t < a.t := WithTop.coe_lt_coe.mp hrfacts.1.2
          have hres : (if a.t < b2.t then a else b2) = b2 := if_neg (not_lt.mpr hblt.le)
          have heq : treeHit (.node l rt bb) r tmin tmax = some b2 := by
            simp [treeHit, hbox, hhl, hhr, hres]
          have hfull : ∀ q ∈ rt.leaves, ∀ rc, q.hitF r tmin ((a.t : ℚ) : WithTop ℚ) = some rc →
              q.hitF r tmin tmax = some rc := by
            intro q hqmem rc hrc
            have hqwf := (wft_leaf_props hwr q hqmem).1
            have hnarrow := hqwf.narrow r tmin tmax ((a.t : ℚ) : WithTop ℚ)
              (le_of_lt hlfacts.1.2)
            rw [hrc] at hnarrow
            cases hfq : q.hitF r tmin tmax with
            | none =>
              rw [hfq, Option.none_bind] at hnarrow
              exact absurd hnarrow (by simp)
            | some rc2 =>
              rw [hfq, Option.some_bind] at hnarrow
              by_cases hc : ((rc2.t : ℚ) : WithTop ℚ) < ((a.t : ℚ) : WithTop ℚ)
              · rw [if_pos hc] at hnarrow
                injection hnarrow with he
                rw [← he]
              · rw [if_neg hc] at hnarrow
                exact absurd hnarrow (by simp)
          constructor
          · rw [heq]
            refine ⟨fun h => absurd h (by simp), fun hall => ?_⟩
            obtain ⟨q, hqmem, hq⟩ := hlfacts.2.1
            have := hall q (by rw [HT.leaves, List.mem_append]; left; exact hqmem)
            rw [this] at hq
            exact absurd hq (by simp)
          · intro rec hrec
            rw [heq] at hrec
            injection hrec with he
            subst he
            refine ⟨⟨hrfacts.1.1, lt_trans hrfacts.1.2 hlfacts.1.2⟩, ?_, ?_⟩
            · obtain ⟨q, hqmem, hq⟩ := hrfacts.2.1
              exact ⟨q, by rw [HT.leaves, List.mem_append]; right; exact hqmem,
                hfull q hqmem b2 hq⟩
            · intro q hqmem rec2 hrec2
              rw [HT.leaves, List.mem_append] at hqmem
              rcases hqmem with h1 | h1
              · exact le_trans hblt.le (hlfacts.2.2 q h1 rec2 hrec2)
              · by_cases hc : rec2.t < a.t
                · have hqwf := (wft_leaf_props hwr q h1).1
                  have hnarrow := hqwf.narrow r tmin tmax ((a.t : ℚ) : WithTop ℚ)
                    (le_of_lt hlfacts.1.2)
                  rw [hrec2, Option.some_bind,
                    if_pos (WithTop.coe_lt_coe.mpr hc)] at hnarrow
                  exact hrfacts.2.2 q h1 rec2 hnarrow
                · exact le_trans hblt.le (le_trans (not_lt.mp hc) le_rfl)

theorem minByT_mem (hd : HitRec) (tl : List HitRec) : minByT hd tl ∈ hd :: tl := by
  induction tl generalizing hd with
  | nil => simp [minByT]
  | cons b tl ih =>
    have hdef : minByT hd (b :: tl) = minByT (if hd.t < b.t then hd else b) tl := rfl
    rw [hdef]
    rcases List.mem_cons.mp (ih (if hd.t < b.t then hd else b)) with h | h
    · rw [h]
      by_cases hlt : hd.t < b.t
      · simp [hlt]
      · simp [hlt]
    · simp [List.mem_cons, h]

theorem minByT_le (hd : HitRec) (tl : List HitRec) :
    ∀ x ∈ hd :: tl, (minByT hd tl).t ≤ x.t := by
  induction tl generalizing hd with
  | nil =>
    intro x hx
    rw [List.mem_singleton] at hx
    subst hx
    simp [minByT]
  | cons b tl ih =>
    intro x hx
    have hdef : minByT hd (b :: tl) = minByT (if hd.t < b.t then hd else b) tl := rfl
    rw [hdef]
    have hfhd : (if hd.t < b.t then hd else b).t ≤ hd.t := by
      by_cases hlt : hd.t < b.t
      · simp [hlt]
      · simp [hlt]
        exact (not_lt.mp hlt)
    have hfb : (if hd.t < b.t then hd else b).t ≤ b.t := by
      by_cases hlt : hd.t < b.t
      · simp [hlt]
        exact hlt.le
      · simp [hlt]
    have hminf := ih (if hd.t < b.t then hd else b)
      (if hd.t < b.t then hd else b) (List.mem_cons_self _ _)
    rcases List.mem_cons.mp hx with h | hx2
    · subst h
      exact hminf.trans hfhd
    rcases List.mem_cons.mp hx2 with h | h
    · subst h
      exact hminf.trans hfb
    · exact ih (if hd.t < b.t then hd else b) x (List.mem_cons_of_mem _ h)

theorem listHit_none_iff (objects : List Prim) (r : RayQ) (tmin : ℚ) (tmax : WithTop ℚ) :
    listHit objects r tmin tmax = none ↔ ∀ p ∈ objects, p.hitF r tmin tmax = none := by
  unfold listHit
  cases hfm : objects.filterMap (fun obj => obj.hitF r tmin tmax) with
  | nil =>
    simp only []
    exact ⟨fun _ => List.filterMap_eq_nil_iff.mp hfm, fun _ => trivial⟩
  | cons hd tl =>
    simp only []
    constructor
    · intro h
      exact absurd h (by simp)
    · intro hall
      have hnil : objects.filterMap (fun obj => obj.hitF r tmin tmax) = [] :=
        List.filterMap_eq_nil_iff.mpr hall
      rw [hfm] at hnil
      exact absurd hnil (by simp)

theorem listHit_some {objects : List Prim} {r : RayQ} {tmin : ℚ} {tmax : WithTop ℚ}
    {rec : HitRec} (h : listHit objects r tmin tmax = some rec) :
    (∃ p ∈ objects, p.hitF r tmin tmax = some rec)
    ∧ ∀ p ∈ objects, ∀ rec2, p.hitF r tmin tmax = some rec2 → rec.t ≤ rec2.t := by
  unfold listHit at h
  cases hfm : objects.filterMap (fun obj => obj.hitF r tmin tmax) with
  | nil =>
    rw [hfm] at h
    exact absurd h (by simp)
  | cons hd tl =>
    rw [hfm] at h
    injection h with h
    constructor
    · have hmem : rec ∈ hd :: tl := h ▸ minByT_mem hd tl
      rw [← hfm] at hmem
      obtain ⟨p, hp, hp2⟩ := List.mem_filterMap.mp hmem
      exact ⟨p, hp, hp2⟩
    · intro p hp rec2 hrec2
      have hmem2 : rec2 ∈ objects.filterMap (fun obj => obj.hitF r tmin tmax) :=
        List.mem_filterMap.mpr ⟨p, hp, hrec2⟩
      rw [hfm] at hmem2
      rw [← h]
      exact minByT_le hd tl rec2 hmem2

theorem built_leaves {l : List Prim} {T : HT} (h : Built l T) :
    ∀ p, p ∈ T.leaves ↔ p ∈ l := by
  induction h with
  | one p bb hbox =>
    intro x
    simp [HT.leaves]
  | twoLess p q bp bq axis hp hq hcmp =>
    intro x
    simp [HT.leaves]
  | twoSwap p q bp bq axis hp hq o hcmp hne =>
    intro x
    simp [HT.leaves]
    tauto
  | many l sorted axis tl tr bl br hlen hperm hsorted hbl hbr hrl hrr ihl ihr =>
    intro x
    have hsplit : sorted.take (sorted.length / 2) ++ sorted.drop (sorted.length / 2)
        = sorted := List.take_append_drop _ _
    constructor
    · intro hx
      rw [HT.leaves, List.mem_append] at hx
      rcases hx with h1 | h1
      · exact hperm.mem_iff.mp (List.take_subset _ _ ((ihl x).mp h1))
      · exact hperm.mem_iff.mp (List.drop_subset _ _ ((ihr x).mp h1))
    · intro hx
      have hx2 : x ∈ sorted := hperm.mem_iff.mpr hx
      rw [← hsplit, List.mem_append] at hx2
      rw [HT.leaves, List.mem_append]
      rcases hx2 with h1 | h1
      · exact Or.inl ((ihl x).mpr h1)
      · exact Or.inr ((ihr x).mpr h1)

theorem built_wft {l : List Prim} {T : HT} (h : Built l T) :
    (∀ p ∈ l, WFPrim p) → ∃ b, T.rootBox = some b ∧ WFT T b := by
  induction h with
  | one p bb hbox =>
    intro hwf
    have hp := hwf p (List.mem_singleton.mpr rfl)
    obtain ⟨bb2, hbb2, hprop⟩ := hp.properBox
    rw [hbox] at hbb2
    injection hbb2 with he
    rw [← he] at hprop
    refine ⟨mergeAabbs bb bb, rfl, ?_⟩
    exact WFT.node _ _ _ _ _ (WFT.prim p bb hp hbox hprop) (WFT.prim p bb hp hbox hprop)
      (containsAabb_merge_left bb bb) (containsAabb_merge_right bb bb)
      (properAabb_merge hprop hprop)
  | twoLess p q bp bq axis hp hq hcmp =>
    intro hwf
    have hp2 := hwf p (by simp)
    have hq2 := hwf q (by simp)
    obtain ⟨bp2, hbp2, hpropp⟩ := hp2.properBox
    obtain ⟨bq2, hbq2, hpropq⟩ := hq2.properBox
    rw [hp] at hbp2
    injection hbp2 with he1
    rw [← he1] at hpropp
    rw [hq] at hbq2
    injection hbq2 with he2
    rw [← he2] at hpropq
    refine ⟨mergeAabbs bp bq, rfl, ?_⟩
    exact WFT.node _ _ _ _ _ (WFT.prim p bp hp2 hp hpropp) (WFT.prim q bq hq2 hq hpropq)
      (containsAabb_merge_left bp bq) (containsAabb_merge_right bp bq)
      (properAabb_merge hpropp hpropq)
  | twoSwap p q bp bq axis hp hq o hcmp hne =>
    intro hwf
    have hp2 := hwf p (by simp)
    have hq2 := hwf q (by simp)
    obtain ⟨bp2, hbp2, hpropp⟩ := hp2.properBox
    obtain ⟨bq2, hbq2, hpropq⟩ := hq2.properBox
    rw [hp] at hbp2
    injection hbp2 with he1
    rw [← he1] at hpropp
    rw [hq] at hbq2
    injection hbq2 with he2
    rw [← he2] at hpropq
    refine ⟨mergeAabbs bq bp, rfl, ?_⟩
    exact WFT.node _ _ _ _ _ (WFT.prim q bq hq2 hq hpropq) (WFT.prim p bp hp2 hp hpropp)
      (containsAabb_merge_left bq bp) (containsAabb_merge_right bq bp)
      (properAabb_merge hpropq hpropp)
  | many l sorted axis tl tr bl br hlen hperm hsorted hbl hbr hrl hrr ihl ihr =>
    intro hwf
    obtain ⟨b1, hb1, hw1⟩ := ihl (fun p hp =>
      hwf p (hperm.mem_iff.mp (List.take_subset _ _ hp)))
    obtain ⟨b2, hb2, hw2⟩ := ihr (fun p hp =>
      hwf p (hperm.mem_iff.mp (List.drop_subset _ _ hp)))
    rw [hrl] at hb1
    injection hb1 with he1
    rw [← he1] at hw1
    rw [hrr] at hb2
    injection hb2 with he2
    rw [← he2] at hw2
    refine ⟨mergeAabbs bl br, rfl, ?_⟩
    exact WFT.node _ _ _ _ _ hw1 hw2
      (containsAabb_merge_left bl br) (containsAabb_merge_right bl br)
      (properAabb_merge (wft_proper hw1) (wft_proper hw2))

/-- C1 (amended): for every finite collection of well-formed bounded
primitives (§4.2 contract: nearest-hit semantics inside the open
interval, box soundness, proper boxes) and every ray and parameter
interval, the hit query on any BVH the builder can produce over those
primitives — pruning on the node box, querying the left child, querying
the right child with `t_max` tightened to the left hit's `t`, and keeping
the smaller-`t` result — hits exactly when the flat `HittableList` query
does and reports the same `t`; and whenever the record attaining that
minimal `t` among the primitives' hits is unique, the two queries return
the identical record (hence the same `front_face` and material identity).
With exact ties between distinct records the two sides may return
different records of equal `t`, which is why the unqualified claim
fails. -/
theorem bvh_list_hit_equiv (prims : List Prim) (T : HT) (r : RayQ)
    (tmin : ℚ) (tmax : WithTop ℚ)
    (hwf : ∀ p ∈ prims, WFPrim p) (hbuilt : Built prims T) :
    Option.map HitRec.t (treeHit T r tmin tmax)
      = Option.map HitRec.t (listHit prims r tmin tmax)
    ∧ ∀ rec rec2, treeHit T r tmin tmax = some rec →
        listHit prims r tmin tmax = some rec2 →
        (∀ p ∈ prims, ∀ rc, p.hitF r tmin tmax = some rc → rc.t = rec.t → rc = rec) →
        rec2 = rec := by
  obtain ⟨b, hroot, hwft⟩ := built_wft hbuilt hwf
  have hspec := treeHit_spec hwft r tmin tmax
  have hmem := built_leaves hbuilt
  constructor
  · cases hth : treeHit T r tmin tmax with
    | none =>
      have hall : ∀ p ∈ prims, p.hitF r tmin tmax = none := fun p hp =>
        (hspec.1.mp hth) p ((hmem p).mpr hp)
      rw [(listHit_none_iff prims r tmin tmax).mpr hall]
    | some rec =>
      obtain ⟨hbounds, ⟨q, hqmem, hq⟩, hmin⟩ := hspec.2 rec hth
      cases hlh : listHit prims r tmin tmax with
      | none =>
        have := (listHit_none_iff prims r tmin tmax).mp hlh q ((hmem q).mp hqmem)
        rw [this] at hq
        exact absurd hq (by simp)
      | some rec2 =>
        obtain ⟨⟨q2, hq2mem, hq2⟩, hmin2⟩ := listHit_some hlh
        have h1 : rec.t ≤ rec2.t := hmin q2 ((hmem q2).mpr hq2mem) rec2 hq2
        have h2 : rec2.t ≤ rec.t := hmin2 q ((hmem q).mp hqmem) rec hq
        simp [le_antisymm h1 h2]
  · intro rec rec2 hth hlh huniq
    obtain ⟨hbounds, ⟨q, hqmem, hq⟩, hmin⟩ := hspec.2 rec hth
    obtain ⟨⟨q2, hq2mem, hq2⟩, hmin2⟩ := listHit_some hlh
    have h1 : rec.t ≤ rec2.t := hmin q2 ((hmem q2).mpr hq2mem) rec2 hq2
    have h2 : rec2.t ≤ rec.t := hmin2 q ((hmem q).mp hqmem) rec hq
    exact huniq q2 hq2mem rec2 hq2 (le_antisymm h2 h1)

theorem cBox_slab (m M : ℚ) (hmM : m ≤ M) (a : Fin 3) (acc : ℚ × WithTop ℚ) :
    (cBox m M).slab cRay a acc = (ffmax m acc.1, ffminT M acc.2) := by
  have e1 : ((cBox m M).min.get a - cRay.origin.get a) * (1 / cRay.direction.get a)
      = m := by
    simp [cBox, cRay, V3.get_broadcast]
  have e2 : ((cBox m M).max.get a - cRay.origin.get a) * (1 / cRay.direction.get a)
      = M := by
    simp [cBox, cRay, V3.get_broadcast]
  simp only [Aabb.slab]
  rw [e1, e2]
  simp only [ffmin_eq_min, ffmax_eq_max, min_eq_left hmM, max_eq_right hmM]

theorem cBox_hit (m M th : ℚ) (hm : m < th) (hM : th < M)
    (tmin : ℚ) (tmax : WithTop ℚ) (h1 : tmin < th) (h2 : (th : WithTop ℚ) < tmax) :
    (cBox m M).hit cRay tmin tmax = true := by
  have hmM : m ≤ M := (hm.trans hM).le
  have hstep : ∀ (x : ℚ) (y : WithTop ℚ), x < th → (th : WithTop ℚ) < y →
      ffmax m x < th ∧ (th : WithTop ℚ) < ffminT M y := by
    intro x y hx hy
    constructor
    · rw [ffmax_eq_max]
      exact max_lt hm hx
    · rw [ffminT_eq_min]
      exact lt_min (WithTop.coe_lt_coe.mpr hM) hy
  have hcond : ∀ (x : ℚ) (y : WithTop ℚ), x < th → (th : WithTop ℚ) < y →
      ¬ (ffminT M y ≤ ((ffmax m x : ℚ) : WithTop ℚ)) := by
    intro x y hx hy hle
    obtain ⟨ha, hb⟩ := hstep x y hx hy
    have hlt : (th : WithTop ℚ) < ((ffmax m x : ℚ) : WithTop ℚ) := lt_of_lt_of_le hb hle
    exact absurd (WithTop.coe_lt_coe.mp hlt) (not_lt.mpr ha.le)
  simp only [Aabb.hit, cBox_slab m M hmM]
  have s0 := hstep tmin tmax h1 h2
  have s1 := hstep _ _ s0.1 s0.2
  rw [if_neg (hcond tmin tmax h1 h2), if_neg (hcond _ _ s0.1 s0.2),
    if_neg (hcond _ _ s1.1 s1.2)]

theorem cPrim_wf (th : ℚ) (rec0 : HitRec) (m M : ℚ)
    (ht : rec0.t = th) (hm : m < th) (hM : th < M) :
    WFPrim (cPrim th rec0 m M) := by
  refine ⟨?_, ?_, ?_, ?_⟩
  · intro r tmin tmax rec hrec
    simp only [cPrim] at hrec
    split_ifs at hrec with hc
    injection hrec with he
    rw [← he, ht]
    exact ⟨hc.2.1, hc.2.2⟩
  · intro r tmin tmax tmax2 hle
    simp only [cPrim]
    by_cases hray : r = cRay
    · by_cases htmin : tmin < th
      · by_cases hsmall : (th : WithTop ℚ) < tmax2
        · have hbig : (th : WithTop ℚ) < tmax := lt_of_lt_of_le hsmall hle
          rw [if_pos ⟨hray, htmin, hsmall⟩, if_pos ⟨hray, htmin, hbig⟩,
            Option.some_bind, ht, if_pos hsmall]
        · rw [if_neg (fun hc => hsmall hc.2.2)]
          by_cases hbig : (th : WithTop ℚ) < tmax
          · rw [if_pos ⟨hray, htmin, hbig⟩, Option.some_bind, ht, if_neg hsmall]
          · rw [if_neg (fun hc => hbig hc.2.2), Option.none_bind]
      · rw [if_neg (fun hc => htmin hc.2.1), if_neg (fun hc => htmin hc.2.1),
          Option.none_bind]
    · rw [if_neg (fun hc => hray hc.1), if_neg (fun hc => hray hc.1), Option.none_bind]
  · intro r tmin tmax rec hrec
    simp only [cPrim] at hrec
    split_ifs at hrec with hc
    refine ⟨cBox m M, rfl, ?_⟩
    rw [hc.1]
    exact cBox_hit m M th hm hM tmin tmax hc.2.1 hc.2.2
  · refine ⟨cBox m M, rfl, fun a => ?_⟩
    simp only [cBox]
    simp [V3.get_broadcast]
    exact (hm.trans hM).le

theorem pA_hit0 : pA.hitF cRay 0 ⊤ = some cRecA := by
  show (if cRay = cRay ∧ (0 : ℚ) < 1 ∧ ((1 : ℚ) : WithTop ℚ) < ⊤
      then some cRecA else none) = some cRecA
  rw [if_pos ⟨rfl, by norm_num, WithTop.coe_lt_top 1⟩]

theorem pB_hit0 : pB.hitF cRay 0 ⊤ = some cRecB := by
  show (if cRay = cRay ∧ (0 : ℚ) < 1 ∧ ((1 : ℚ) : WithTop ℚ) < ⊤
      then some cRecB else none) = some cRecB
  rw [if_pos ⟨rfl, by norm_num, WithTop.coe_lt_top 1⟩]

theorem pB_hit1 : pB.hitF cRay 0 (1 : WithTop ℚ) = none := by
  show (if cRay = cRay ∧ (0 : ℚ) < 1 ∧ ((1 : ℚ) : WithTop ℚ) < (1 : WithTop ℚ)
      then some cRecB else none) = none
  rw [if_neg]
  intro hc
  exact absurd hc.2.2 (lt_irrefl (1 : WithTop ℚ))

theorem mergeAB_eq : mergeAabbs (cBox (-100) 100) (cBox (-99) 101) = cBox (-100) 101 := by
  have h1 : min (-100 : ℚ) (-99) = -100 := min_eq_left (by norm_num)
  have h2 : max (100 : ℚ) 101 = 101 := max_eq_right (by norm_num)
  simp [mergeAabbs, cBox, V3.broadcast, h1, h2]

theorem tAB_hit : treeHit tAB cRay 0 ⊤ = some cRecA := by
  have hbox : (mergeAabbs (cBox (-100) 100) (cBox (-99) 101)).hit cRay 0 ⊤ = true := by
    rw [mergeAB_eq]
    exact cBox_hit (-100) 101 1 (by norm_num) (by norm_num) 0 ⊤ (by norm_num)
      (WithTop.coe_lt_top 1)
  have ht : cRecA.t = 1 := rfl
  simp [tAB, treeHit, hbox, pA_hit0, ht, pB_hit1]

theorem listAB_hit : listHit [pA, pB] cRay 0 ⊤ = some cRecB := by
  simp only [listHit, List.filterMap_cons, List.filterMap_nil, pA_hit0, pB_hit0]
  have hlt : ¬ (cRecA.t < cRecB.t) := by
    have h1 : cRecA.t = 1 := rfl
    have h2 : cRecB.t = 1 := rfl
    rw [h1, h2]
    exact lt_irrefl 1
  simp [minByT, hlt]

/-- C1 counterexample: two well-formed primitives that both hit the ray
`cRay` at exactly `t = 1` but carry different material identities
(`pA ↦ 0`, `pB ↦ 1`).  Every axis orders `pA`'s box minimum first, so the
builder produces the unique tree `tAB` with `pA` left.  The BVH query
returns the left hit (the tightened right query excludes the tie), i.e.
material `0`, while `HittableList::hit`'s comparator (`Greater` on ties)
makes the flat scan return the last minimal record, material `1`: equal
`t`, different material identity — the claim as stated fails. -/
theorem bvh_list_hit_tie_counterexample :
    (∀ p ∈ [pA, pB], WFPrim p)
    ∧ Built [pA, pB] tAB
    ∧ Option.map HitRec.mtl (treeHit tAB cRay 0 ⊤) = some 0
    ∧ Option.map HitRec.mtl (listHit [pA, pB] cRay 0 ⊤) = some 1
    ∧ Option.map HitRec.t (treeHit tAB cRay 0 ⊤)
        = Option.map HitRec.t (listHit [pA, pB] cRay 0 ⊤) := by
  have hcmp : boxCompare pA pB 0 = some .lt := by
    simp only [boxCompare, pA, pB, cPrim]
    have hget : ∀ m M : ℚ, (cBox m M).min.get 0 = m := fun m M => rfl
    rw [hget, hget]
    exact congrArg some (compare_lt_iff_lt.mpr (by norm_num))
  refine ⟨?_, ?_, ?_, ?_, ?_⟩
  · intro p hp
    rcases List.mem_pair.mp hp with h | h <;> subst h
    · exact cPrim_wf 1 cRecA (-100) 100 rfl (by norm_num) (by norm_num)
    · exact cPrim_wf 1 cRecB (-99) 101 rfl (by norm_num) (by norm_num)
  · exact Built.twoLess pA pB (cBox (-100) 100) (cBox (-99) 101) 0 rfl rfl hcmp
  · rw [tAB_hit]
    rfl
  · rw [listAB_hit]
    rfl
  · rw [tAB_hit, listAB_hit]
    rfl

/-- Witness for C1 (amended): the singleton scene `[pA]` and the tree the
builder produces for it. -/
theorem bvh_list_hit_equiv_witness :
    Option.map HitRec.t (treeHit tA1 cRay 0 ⊤)
      = Option.map HitRec.t (listHit [pA] cRay 0 ⊤) :=
  (bvh_list_hit_equiv [pA] tA1 cRay 0 ⊤
    (fun p hp => by
      rw [List.mem_singleton] at hp
      subst hp
      exact cPrim_wf 1 cRecA (-100) 100 rfl (by norm_num) (by norm_num))
    (Built.one pA (cBox (-100) 100) rfl)).1
